import Mathlib

/-
Shallow embedding of the TL2-style software transactional memory found in
src/tl2 (region.hpp, transaction.hpp, tm.cpp).  The embedding is sequential:
every operation of the C++ code that mutates shared state is a Lean function
that takes the region (and transaction) and returns the updated copies.
Machine integers are modelled as Nat; the 32-bit unsigned arithmetic of the
global version clock (std::atomic_uint) and of the rv/wv fields (uint32_t)
is made explicit with a modulus of 2^32 where the C++ code can wrap.
Byte buffers are modelled at word (align-byte chunk) granularity: every
memcpy in the source moves exactly align bytes at an align-aligned offset,
so a chunk is one Nat and a private buffer is a list of chunks.
-/

namespace TL2

/-- Modulus of C unsigned int / uint32_t arithmetic. -/
def uintMod : Nat := 4294967296

/-- Sampled state of a versioned lock, mirroring VersionedLock::TimeStamp. -/
structure TimeStamp where
  locked : Bool
  version : Nat
  deriving DecidableEq

/-- Modelled from the spec: the file versioned_lock.hpp is not part of src/,
only its users are.  Per spec section 4.1 a versioned lock is the pair
(locked, version) held in one atomic word. -/
structure VersionedLock where
  locked : Bool
  version : Nat
  deriving DecidableEq

/-- Modelled from the spec: sample() atomically loads (locked, version). -/
def VersionedLock.Sample (l : VersionedLock) : TimeStamp :=
  ⟨l.locked, l.version⟩

/-- Modelled from the spec: try_lock(rv) succeeds iff currently unlocked,
setting locked := true and leaving the version unchanged; the rv argument is
informational only. -/
def VersionedLock.TryLock (l : VersionedLock) (_rv : Nat) : Bool × VersionedLock :=
  if l.locked then (false, l) else (true, { l with locked := true })

/-- Modelled from the spec: unlock() sets locked := false, version unchanged. -/
def VersionedLock.Unlock (l : VersionedLock) : VersionedLock :=
  { l with locked := false }

/-- Modelled from the spec: unlock_with(v) sets locked := false, version := v. -/
def VersionedLock.UnlockWith (_l : VersionedLock) (v : Nat) : VersionedLock :=
  ⟨false, v⟩

/-- Region::Word: a versioned lock plus an align-byte payload (field named
word in region.hpp and data in tm.cpp; we use data). -/
structure Word where
  lock : VersionedLock
  data : Nat
  deriving DecidableEq

instance : Inhabited Word := ⟨⟨⟨false, 0⟩, 0⟩⟩

/-- Region::Segment: declared byte size plus a vector of words that is always
constructed with exactly 1024 default-initialized entries. -/
structure Segment where
  size : Nat
  words : List Word
  deriving DecidableEq

/-- Transaction (transaction.hpp): read-only flag, read-version rv,
write-version wv (initially 0), a read set (std::unordered_set, modelled as a
duplicate-free list) and a write set (std::map from address to a staged
align-byte chunk, modelled as an association list sorted by address, which is
the iteration order of std::map). -/
structure Transaction where
  ro : Bool
  rv : Nat
  wv : Nat
  read_set : List Nat
  write_set : List (Nat × Nat)
  deriving DecidableEq

/-- Region (region.hpp): alignment, the segment vector (constructed with 512
copies of Segment{size}), the global version clock gvc (atomic_uint, initial
0) and the segment-id counter segs (atomic_uint32_t, initial 1). -/
structure Region where
  align : Nat
  mem : List Segment
  gvc : Nat
  segs : Nat
  deriving DecidableEq

/-- Region::kADDR_MASK = 0x000000000000FFFF. -/
def kADDR_MASK : Nat := 65535

/-- Segment index of an address: addr >> 32. -/
def segIndex (addr : Nat) : Nat := addr >>> 32

/-- Word index of an address: (addr & kADDR_MASK) / align. -/
def wordIndex (align addr : Nat) : Nat := (addr &&& kADDR_MASK) / align

/-- Region::word: the lookup mem[addr >> 32].words[(addr & kADDR_MASK) / align].
The C++ operator[] does no bounds check; the embedding makes the bounds
explicit by returning none for an out-of-range access. -/
def Region.word (r : Region) (addr : Nat) : Option Word :=
  match r.mem[segIndex addr]? with
  | none => none
  | some s => s.words[wordIndex r.align addr]?

/-- Total version of Region::word used by the operational definitions. -/
def Region.wordD (r : Region) (addr : Nat) : Word :=
  (r.word addr).getD default

/-- Write a word back through the address scheme (no-op out of range, matching
the fact that the in-range cases are the only defined ones). -/
def Region.wordSet (r : Region) (addr : Nat) (w : Word) : Region :=
  match r.mem[segIndex addr]? with
  | none => r
  | some s =>
      let s2 := { s with words := s.words.set (wordIndex r.align addr) w }
      { r with mem := r.mem.set (segIndex addr) s2 }

/-- Region::Region(size, align): align := align, mem := 512 copies of
Segment{size} (each with 1024 default words), gvc := 0, segs := 1. -/
def tm_create (size align : Nat) : Region :=
  ⟨align, List.replicate 512 ⟨size, List.replicate 1024 default⟩, 0, 1⟩

/-- Modelled from the spec: Region::Alloc is called by tm_alloc but its
definition is missing from src/ (region.hpp only declares the segs counter).
Per spec sections 1 and 4.3 it is a bump allocator: reserve a fresh segment id
from the monotonic counter and return the address id << 32; the pre-sized
segment directory is not touched. -/
def Region.Alloc (r : Region) (size : Nat) : Nat × Region :=
  let _ := size
  ((r.segs + 1) % uintMod <<< 32, { r with segs := (r.segs + 1) % uintMod })

/-- Apply a sequence of allocation calls to a region. -/
def applyAllocs (r : Region) : List Nat → Region
  | [] => r
  | sz :: rest => applyAllocs (r.Alloc sz).2 rest

/-- tm_begin: a fresh transaction with ro flag, rv := gvc.load(), wv := 0 and
empty read and write sets. -/
def tm_begin (r : Region) (ro : Bool) : Transaction :=
  ⟨ro, r.gvc, 0, [], []⟩

/-- Insertion into the read set (std::unordered_set::emplace: insert if
absent). -/
def insertRS (s : List Nat) (a : Nat) : List Nat :=
  if a ∈ s then s else a :: s

/-- Lookup in the write set (std::map::find). -/
def wsFind : List (Nat × Nat) → Nat → Option Nat
  | [], _ => none
  | (b, v) :: t, a => if a = b then some v else wsFind t a

/-- Insert-or-assign into the address-sorted write set
(std::map::operator[] followed by memcpy of the staged chunk). -/
def wsInsert : List (Nat × Nat) → Nat → Nat → List (Nat × Nat)
  | [], a, v => [(a, v)]
  | (b, w) :: t, a, v =>
    if a < b then (a, v) :: (b, w) :: t
    else if a = b then (a, v) :: t
    else (b, w) :: wsInsert t a v

/-- Loop body of tm_write: for offset = 0, align, 2*align, ... stage the
source chunk at write_set[target + offset]. -/
def stageWords (align : Nat) : List (Nat × Nat) → List Nat → Nat → List (Nat × Nat)
  | ws, [], _ => ws
  | ws, c :: rest, target => stageWords align (wsInsert ws target c) rest (target + align)

/-- tm_write: stage each align-byte chunk of the source into the write set;
shared state is untouched and the function returns true. -/
def tm_write (r : Region) (tx : Transaction) (src : List Nat) (target : Nat) :
    Bool × Transaction × Region :=
  (true, { tx with write_set := stageWords r.align tx.write_set src target }, r)

/-- Read-only loop of tm_read: for each of n words starting at source, sample
the lock; abort (none) if locked or rv < version, else copy the payload. -/
def readWordsRO (r : Region) (tx : Transaction) : Nat → Nat → Option (List Nat × Transaction)
  | _, 0 => some ([], tx)
  | source, n + 1 =>
    let w := r.wordD source
    let ts := w.lock.Sample
    if ts.locked ∨ tx.rv < ts.version then none
    else
      match readWordsRO r tx (source + r.align) n with
      | none => none
      | some (cs, tx2) => some (w.data :: cs, tx2)

/-- Read-write loop of tm_read: for each word, first insert the address into
the read set, then serve from the write set if present, else sample the lock
and abort (none) if locked or rv < version, else copy the payload. -/
def readWordsRW (r : Region) : Transaction → Nat → Nat → Option (List Nat × Transaction)
  | tx, _, 0 => some ([], tx)
  | tx, source, n + 1 =>
    let tx1 := { tx with read_set := insertRS tx.read_set source }
    match wsFind tx.write_set source with
    | some v =>
      match readWordsRW r tx1 (source + r.align) n with
      | none => none
      | some (cs, tx2) => some (v :: cs, tx2)
    | none =>
      let w := r.wordD source
      let ts := w.lock.Sample
      if ts.locked ∨ tx.rv < ts.version then none
      else
        match readWordsRW r tx1 (source + r.align) n with
        | none => none
        | some (cs, tx2) => some (w.data :: cs, tx2)

/-- tm_read over n consecutive words starting at source (the C++ size argument
equals n * align).  The result none models the abort path: the transaction is
deleted and tm_read returns false; some (dst, tx) models returning true with
the destination buffer filled in offset order. -/
def tm_read (r : Region) (tx : Transaction) (source n : Nat) :
    Option (List Nat × Transaction) :=
  if tx.ro then readWordsRO r tx source n
  else readWordsRW r tx source n

/-- Unlock of the local Word copies accumulated by Region::LockWriteSet.  The
C++ loop pushes reference_wrappers to the by-value copy w of each word and
calls Unlock on them; the shared region is not affected. -/
def unlockCopies (r : Region) (l : List Word) : Region :=
  let _ := l.map fun w => { w with lock := w.lock.Unlock }
  r

/-- Loop of Region::LockWriteSet.  Note the source reads auto w = word(...):
w is a by-value copy of the shared word, TryLock mutates the copy, and the
copy is what is remembered in the locked vector. -/
def lockWriteSetGo (r : Region) (rv : Nat) (locked : List Word) :
    List (Nat × Nat) → Bool × Region
  | [] => (true, r)
  | e :: t =>
    let w := r.wordD e.1
    match w.lock.TryLock rv with
    | (false, _) => (false, unlockCopies r locked)
    | (true, l2) => lockWriteSetGo r rv (locked ++ [{ w with lock := l2 }]) t

/-- Region::LockWriteSet: iterate the write set in std::map order (ascending
address), TryLock each word copy; on the first failure unlock the recorded
copies and return false, else return true. -/
def Region.LockWriteSet (r : Region) (tx : Transaction) : Bool × Region :=
  lockWriteSetGo r tx.rv [] tx.write_set

/-- Region::UnlockWriteSet: Unlock (version unchanged) the shared lock of
every write-set word. -/
def Region.UnlockWriteSet (r : Region) (tx : Transaction) : Region :=
  tx.write_set.foldl
    (fun acc e => acc.wordSet e.1 ⟨(acc.wordD e.1).lock.Unlock, (acc.wordD e.1).data⟩)
    r

/-- Loop of Region::ValidateReadSet. -/
def validateGo (r : Region) (rv : Nat) : List Nat → Bool
  | [] => true
  | a :: t =>
    let ts := (r.wordD a).lock.Sample
    if rv < ts.version ∨ ts.locked then false else validateGo r rv t

/-- Region::ValidateReadSet: sample every read-set word; false on the first
one that is locked or has version > rv. -/
def Region.ValidateReadSet (r : Region) (tx : Transaction) : Bool :=
  validateGo r tx.rv tx.read_set

/-- Region::Commit: for each write-set entry copy the staged chunk into the
shared payload, then Unlock(wv) i.e. release with version := wv. -/
def Region.Commit (r : Region) (tx : Transaction) : Region :=
  tx.write_set.foldl
    (fun acc e => acc.wordSet e.1 ⟨(acc.wordD e.1).lock.UnlockWith tx.wv, e.2⟩)
    r

/-- tm_end: read-only transactions commit immediately; otherwise lock the
write set (abort on failure), bump the clock obtaining wv = fetch_add(1) + 1,
commit directly when rv + 1 = wv, otherwise validate the read set and either
commit or release the write-set locks and abort.  Every path deletes the
transaction, hence no transaction is returned. -/
def tm_end (r : Region) (tx : Transaction) : Bool × Region :=
  if tx.ro then (true, r)
  else
    match r.LockWriteSet tx with
    | (false, r1) => (false, r1)
    | (true, r1) =>
      let wv := (r1.gvc + 1) % uintMod
      let r2 := { r1 with gvc := wv }
      let tx1 := { tx with wv := wv }
      if (tx.rv + 1) % uintMod = wv then (true, r2.Commit tx1)
      else if r2.ValidateReadSet tx1 then (true, r2.Commit tx1)
      else (false, r2.UnlockWriteSet tx1)

/-
Concrete fixtures used to instantiate the theorems: tiny regions with one
word per segment, addresses following the segment-id-in-high-bits scheme.
-/

/-- Fixture word: unlocked, version 0, payload 0. -/
def wZero : Word := ⟨⟨false, 0⟩, 0⟩

/-- Fixture word: unlocked, version 0, payload 17. -/
def wVal : Word := ⟨⟨false, 0⟩, 17⟩

/-- Fixture word: unlocked but with version 9 (stale for rv < 9). -/
def wStale : Word := ⟨⟨false, 9⟩, 23⟩

/-- Fixture word: locked. -/
def wLocked : Word := ⟨⟨true, 0⟩, 31⟩

/-- Fixture segment holding a single word. -/
def segOf (w : Word) : Segment := ⟨8, [w]⟩

/-- Address of the first word of segment 1, i.e. 1 << 32. -/
def ADDR : Nat := 4294967296

/-- Fixture region with align 8, gvc 7, segment 0 zeroed and segment 1
holding the given word, so that ADDR designates that word. -/
def regOf (w : Word) : Region := ⟨8, [segOf wZero, segOf w], 7, 1⟩

/-- Fixture transaction: read-write, rv 7, one staged write at ADDR. -/
def txC2 : Transaction := ⟨false, 7, 0, [], [(ADDR, 17)]⟩

/-- Fixture transaction: read-write, rv 7, ADDR in the read set, empty
write set. -/
def txC3 : Transaction := ⟨false, 7, 0, [ADDR], []⟩

/-- Fixture transaction: read-write, rv 7, empty read set, one staged write
at ADDR. -/
def txC4 : Transaction := ⟨false, 7, 0, [], [(ADDR, 119)]⟩

/-- Fixture transaction: read-write, rv 0, ADDR in the read set, empty
write set (stale against a word of version 9). -/
def txC6 : Transaction := ⟨false, 0, 0, [ADDR], []⟩

/-
Helper lemmas.
-/

lemma list_set_self {α : Type _} (l : List α) (i : Nat) (h : i < l.length) :
    l.set i l[i] = l := by
  induction l generalizing i with
  | nil => simp at h
  | cons x t ih =>
    cases i with
    | zero => rfl
    | succ j =>
      have hj : j < t.length := by simpa using h
      simp only [List.getElem_cons_succ, List.set_cons_succ]
      rw [ih j hj]

lemma list_set_getElem? {α : Type _} (l : List α) (i : Nat) (w : α)
    (h : l[i]? = some w) : l.set i w = l := by
  rw [List.getElem?_eq_some] at h
  obtain ⟨hl, he⟩ := h
  subst he
  exact list_set_self l i hl

lemma wordD_gvc (r : Region) (g a : Nat) :
    Region.wordD { r with gvc := g } a = r.wordD a := rfl

lemma wordSet_gvc (r : Region) (g a : Nat) (w : Word) :
    Region.wordSet { r with gvc := g } a w = { r.wordSet a w with gvc := g } := by
  unfold Region.wordSet
  cases r.mem[segIndex a]? <;> rfl

lemma validateGo_gvc (r : Region) (g rv : Nat) (l : List Nat) :
    validateGo { r with gvc := g } rv l = validateGo r rv l := by
  induction l with
  | nil => rfl
  | cons a t ih => simp only [validateGo, wordD_gvc, ih]

lemma wsFind_insert_self (ws : List (Nat × Nat)) (a v : Nat) :
    wsFind (wsInsert ws a v) a = some v := by
  induction ws with
  | nil => simp [wsInsert, wsFind]
  | cons e t ih =>
    by_cases h1 : a < e.1
    · simp [wsInsert, wsFind, h1]
    · by_cases h2 : a = e.1
      · simp [wsInsert, wsFind, h1, h2]
      · simp [wsInsert, wsFind, h1, h2, ih]

lemma wsFind_insert_ne (ws : List (Nat × Nat)) (a b v : Nat) (h : a ≠ b) :
    wsFind (wsInsert ws b v) a = wsFind ws a := by
  induction ws with
  | nil => simp [wsInsert, wsFind, h]
  | cons e t ih =>
    obtain ⟨eb, ev⟩ := e
    by_cases h1 : b < eb
    · simp [wsInsert, wsFind, h1, h]
    · by_cases h2 : b = eb
      · subst h2
        simp [wsInsert, wsFind, h1, h]
      · simp [wsInsert, wsFind, h1, h2, ih]

lemma wsFind_stage_lt (src : List Nat) (ws : List (Nat × Nat))
    (base a align : Nat) (h : a < base) :
    wsFind (stageWords align ws src base) a = wsFind ws a := by
  induction src generalizing ws base with
  | nil => rfl
  | cons c rest ih =>
    have hb : a < base + align := Nat.lt_of_lt_of_le h (Nat.le_add_right _ _)
    simp only [stageWords]
    rw [ih (wsInsert ws base c) (base + align) hb]
    exact wsFind_insert_ne ws a base c (Nat.ne_of_lt h)

lemma wsFind_stage (src : List Nat) (ws : List (Nat × Nat))
    (base align i : Nat) (hal : 0 < align) (h : i < src.length) :
    wsFind (stageWords align ws src base) (base + i * align) = src[i]? := by
  induction src generalizing ws base i with
  | nil => simp at h
  | cons c rest ih =>
    cases i with
    | zero =>
      simp only [stageWords, Nat.zero_mul, Nat.add_zero]
      rw [wsFind_stage_lt rest (wsInsert ws base c) (base + align) base align
        (Nat.lt_add_of_pos_right hal)]
      simp [wsFind_insert_self]
    | succ j =>
      have hj : j < rest.length := by simpa using h
      have harith : base + (j + 1) * align = (base + align) + j * align := by ring
      simp only [stageWords, harith]
      rw [ih (wsInsert ws base c) (base + align) j hj]
      simp

lemma ball_succ_iff (P : Nat → Prop) (n : Nat) :
    (∀ i, i < n + 1 → P i) ↔ P 0 ∧ ∀ i, i < n → P (i + 1) := by
  constructor
  · intro h
    exact ⟨h 0 (Nat.succ_pos n), fun i hi => h (i + 1) (Nat.succ_lt_succ hi)⟩
  · rintro ⟨h0, h⟩ i hi
    cases i with
    | zero => exact h0
    | succ j => exact h j (Nat.lt_of_succ_lt_succ hi)

lemma mem_insertRS (s : List Nat) (a b : Nat) :
    b ∈ insertRS s a ↔ b = a ∨ b ∈ s := by
  unfold insertRS
  by_cases h : a ∈ s
  · simp only [if_pos h]
    constructor
    · exact Or.inr
    · rintro (rfl | hb)
      · exact h
      · exact hb
  · simp [if_neg h]

lemma mem_foldl_insertRS (l : List Nat) (s : List Nat) (b : Nat) :
    b ∈ l.foldl insertRS s ↔ b ∈ s ∨ b ∈ l := by
  induction l generalizing s with
  | nil => simp
  | cons a t ih =>
    simp only [List.foldl_cons, ih, mem_insertRS, List.mem_cons]
    tauto

/-- Closed form of the read-only loop of tm_read: it succeeds iff every
sampled word is unlocked with version at most rv, in which case the
destination receives the payloads in offset order and the transaction is
untouched. -/
lemma readWordsRO_eq (r : Region) (tx : Transaction) (source n : Nat) :
    readWordsRO r tx source n =
      if ∀ i, i < n → ((r.wordD (source + i * r.align)).lock.locked = false
          ∧ (r.wordD (source + i * r.align)).lock.version ≤ tx.rv)
      then some (((List.range n).map (fun i => (r.wordD (source + i * r.align)).data)), tx)
      else none := by
  induction n generalizing source with
  | zero => simp [readWordsRO]
  | succ n ih =>
    have harith : ∀ i : Nat, source + (i + 1) * r.align = source + r.align + i * r.align := by
      intro i; ring
    have hdst : ∀ f : Nat → Nat,
        ((List.range (n + 1)).map (fun i => f (source + i * r.align))) =
        f source :: ((List.range n).map (fun i => f (source + r.align + i * r.align))) := by
      intro f
      rw [List.range_succ_eq_map, List.map_cons, List.map_map]
      simp only [Nat.zero_mul, Nat.add_zero, List.cons.injEq, true_and]
      apply List.map_congr_left
      intro i _
      simp only [Function.comp_apply, Nat.succ_eq_add_one]
      rw [harith i]
    have hcondshift :
        (∀ i, i < n → ((r.wordD (source + r.align + i * r.align)).lock.locked = false
            ∧ (r.wordD (source + r.align + i * r.align)).lock.version ≤ tx.rv)) ↔
        (∀ i, i < n → ((r.wordD (source + (i + 1) * r.align)).lock.locked = false
            ∧ (r.wordD (source + (i + 1) * r.align)).lock.version ≤ tx.rv)) := by
      constructor <;> intro h i hi
      · rw [harith i]; exact h i hi
      · rw [← harith i]; exact h i hi
    rw [readWordsRO, ih (source + r.align)]
    by_cases hp0 : (r.wordD source).lock.locked = false ∧
        (r.wordD source).lock.version ≤ tx.rv
    · have habort : ¬((r.wordD source).lock.Sample.locked = true
          ∨ tx.rv < (r.wordD source).lock.Sample.version) := by
        rintro (h | h)
        · rw [VersionedLock.Sample] at h
          rw [hp0.1] at h
          exact Bool.false_ne_true h
        · rw [VersionedLock.Sample] at h
          exact absurd hp0.2 (Nat.not_le_of_lt h)
      rw [if_neg habort]
      by_cases hrest : ∀ i, i < n →
          ((r.wordD (source + r.align + i * r.align)).lock.locked = false
            ∧ (r.wordD (source + r.align + i * r.align)).lock.version ≤ tx.rv)
      · rw [if_pos hrest]
        have hall : ∀ i, i < n + 1 →
            ((r.wordD (source + i * r.align)).lock.locked = false
              ∧ (r.wordD (source + i * r.align)).lock.version ≤ tx.rv) := by
          rw [ball_succ_iff (fun i => (r.wordD (source + i * r.align)).lock.locked = false
            ∧ (r.wordD (source + i * r.align)).lock.version ≤ tx.rv) n]
          refine ⟨?_, hcondshift.mp hrest⟩
          simpa using hp0
        rw [if_pos hall, hdst (fun a => (r.wordD a).data)]
      · rw [if_neg hrest]
        have hnall : ¬∀ i, i < n + 1 →
            ((r.wordD (source + i * r.align)).lock.locked = false
              ∧ (r.wordD (source + i * r.align)).lock.version ≤ tx.rv) := by
          rw [ball_succ_iff (fun i => (r.wordD (source + i * r.align)).lock.locked = false
            ∧ (r.wordD (source + i * r.align)).lock.version ≤ tx.rv) n]
          intro hc
          exact hrest (hcondshift.mpr hc.2)
        rw [if_neg hnall]
    · have habort : (r.wordD source).lock.Sample.locked = true
          ∨ tx.rv < (r.wordD source).lock.Sample.version := by
        rw [VersionedLock.Sample]
        by_cases hl : (r.wordD source).lock.locked = true
        · exact Or.inl hl
        · right
          have hl2 : (r.wordD source).lock.locked = false := by
            cases hb : (r.wordD source).lock.locked
            · rfl
            · exact absurd hb hl
          by_contra hv
          exact hp0 ⟨hl2, Nat.le_of_not_lt hv⟩
      rw [if_pos habort]
      have hnall : ¬∀ i, i < n + 1 →
          ((r.wordD (source + i * r.align)).lock.locked = false
            ∧ (r.wordD (source + i * r.align)).lock.version ≤ tx.rv) := by
        intro hc
        have := hc 0 (Nat.succ_pos n)
        simp only [Nat.zero_mul, Nat.add_zero] at this
        exact hp0 this
      rw [if_neg hnall]

/-- Closed form of the read-write loop of tm_read: every address is first
inserted into the read set; write-set hits are served from the staged chunk,
misses are sampled and abort the loop when locked or newer than rv. -/
lemma readWordsRW_eq (r : Region) (tx : Transaction) (source n : Nat) :
    readWordsRW r tx source n =
      if ∀ i, i < n → ((wsFind tx.write_set (source + i * r.align)).isSome = true
          ∨ ((r.wordD (source + i * r.align)).lock.locked = false
            ∧ (r.wordD (source + i * r.align)).lock.version ≤ tx.rv))
      then some (((List.range n).map (fun i =>
              (wsFind tx.write_set (source + i * r.align)).getD
                (r.wordD (source + i * r.align)).data)),
            { tx with read_set := (((List.range n).map (fun i => source + i * r.align)).foldl insertRS tx.read_set) })
      else none := by
  induction n generalizing tx source with
  | zero => simp [readWordsRW]
  | succ n ih =>
    have harith : ∀ i : Nat, source + (i + 1) * r.align = source + r.align + i * r.align := by
      intro i; ring
    have hdst : ∀ f : Nat → Nat,
        ((List.range (n + 1)).map (fun i => f (source + i * r.align))) =
        f source :: ((List.range n).map (fun i => f (source + r.align + i * r.align))) := by
      intro f
      rw [List.range_succ_eq_map, List.map_cons, List.map_map]
      simp only [Nat.zero_mul, Nat.add_zero, List.cons.injEq, true_and]
      apply List.map_congr_left
      intro i _
      simp only [Function.comp_apply, Nat.succ_eq_add_one]
      rw [harith i]
    have hrs : (((List.range (n + 1)).map (fun i => source + i * r.align)).foldl insertRS tx.read_set) =
        (((List.range n).map (fun i => source + r.align + i * r.align)).foldl insertRS (insertRS tx.read_set source)) := by
      rw [hdst (fun a => a), List.foldl_cons]
    have hcondshift :
        (∀ i, i < n → ((wsFind tx.write_set (source + r.align + i * r.align)).isSome = true
            ∨ ((r.wordD (source + r.align + i * r.align)).lock.locked = false
              ∧ (r.wordD (source + r.align + i * r.align)).lock.version ≤ tx.rv))) ↔
        (∀ i, i < n → ((wsFind tx.write_set (source + (i + 1) * r.align)).isSome = true
            ∨ ((r.wordD (source + (i + 1) * r.align)).lock.locked = false
              ∧ (r.wordD (source + (i + 1) * r.align)).lock.version ≤ tx.rv))) := by
      constructor <;> intro h i hi
      · rw [harith i]; exact h i hi
      · rw [← harith i]; exact h i hi
    have hsplit := ball_succ_iff (fun i =>
        (wsFind tx.write_set (source + i * r.align)).isSome = true
          ∨ ((r.wordD (source + i * r.align)).lock.locked = false
            ∧ (r.wordD (source + i * r.align)).lock.version ≤ tx.rv)) n
    rw [readWordsRW]
    cases hf : wsFind tx.write_set source with
    | some v =>
      rw [ih { tx with read_set := insertRS tx.read_set source } (source + r.align)]
      by_cases hrest : ∀ i, i < n →
          ((wsFind tx.write_set (source + r.align + i * r.align)).isSome = true
            ∨ ((r.wordD (source + r.align + i * r.align)).lock.locked = false
              ∧ (r.wordD (source + r.align + i * r.align)).lock.version ≤ tx.rv))
      · rw [if_pos hrest]
        have hall : ∀ i, i < n + 1 →
            ((wsFind tx.write_set (source + i * r.align)).isSome = true
              ∨ ((r.wordD (source + i * r.align)).lock.locked = false
                ∧ (r.wordD (source + i * r.align)).lock.version ≤ tx.rv)) := by
          rw [hsplit]
          refine ⟨?_, hcondshift.mp hrest⟩
          simp only [Nat.zero_mul, Nat.add_zero]
          rw [hf]
          exact Or.inl rfl
        rw [if_pos hall]
        simp only [Option.some.injEq, Prod.mk.injEq]
        constructor
        · rw [hdst (fun a => (wsFind tx.write_set a).getD (r.wordD a).data), hf]
          rfl
        · rw [hrs]
      · rw [if_neg hrest]
        have hnall : ¬∀ i, i < n + 1 →
            ((wsFind tx.write_set (source + i * r.align)).isSome = true
              ∨ ((r.wordD (source + i * r.align)).lock.locked = false
                ∧ (r.wordD (source + i * r.align)).lock.version ≤ tx.rv)) := by
          rw [hsplit]
          intro hc
          exact hrest (hcondshift.mpr hc.2)
        rw [if_neg hnall]
    | none =>
      by_cases hp0 : (r.wordD source).lock.locked = false ∧
          (r.wordD source).lock.version ≤ tx.rv
      · have habort : ¬((r.wordD source).lock.Sample.locked = true
            ∨ tx.rv < (r.wordD source).lock.Sample.version) := by
          rintro (h | h)
          · rw [VersionedLock.Sample] at h
            rw [hp0.1] at h
            exact Bool.false_ne_true h
          · rw [VersionedLock.Sample] at h
            exact absurd hp0.2 (Nat.not_le_of_lt h)
        rw [if_neg habort]
        rw [ih { tx with read_set := insertRS tx.read_set source } (source + r.align)]
        by_cases hrest : ∀ i, i < n →
            ((wsFind tx.write_set (source + r.align + i * r.align)).isSome = true
              ∨ ((r.wordD (source + r.align + i * r.align)).lock.locked = false
                ∧ (r.wordD (source + r.align + i * r.align)).lock.version ≤ tx.rv))
        · rw [if_pos hrest]
          have hall : ∀ i, i < n + 1 →
              ((wsFind tx.write_set (source + i * r.align)).isSome = true
                ∨ ((r.wordD (source + i * r.align)).lock.locked = false
                  ∧ (r.wordD (source + i * r.align)).lock.version ≤ tx.rv)) := by
            rw [hsplit]
            refine ⟨?_, hcondshift.mp hrest⟩
            simp only [Nat.zero_mul, Nat.add_zero]
            exact Or.inr hp0
          rw [if_pos hall]
          simp only [Option.some.injEq, Prod.mk.injEq]
          constructor
          · rw [hdst (fun a => (wsFind tx.write_set a).getD (r.wordD a).data), hf]
            rfl
          · rw [hrs]
        · rw [if_neg hrest]
          have hnall : ¬∀ i, i < n + 1 →
              ((wsFind tx.write_set (source + i * r.align)).isSome = true
                ∨ ((r.wordD (source + i * r.align)).lock.locked = false
                  ∧ (r.wordD (source + i * r.align)).lock.version ≤ tx.rv)) := by
            rw [hsplit]
            intro hc
            exact hrest (hcondshift.mpr hc.2)
          rw [if_neg hnall]
      · have habort : (r.wordD source).lock.Sample.locked = true
            ∨ tx.rv < (r.wordD source).lock.Sample.version := by
          rw [VersionedLock.Sample]
          by_cases hl : (r.wordD source).lock.locked = true
          · exact Or.inl hl
          · right
            have hl2 : (r.wordD source).lock.locked = false := by
              cases hb : (r.wordD source).lock.locked
              · rfl
              · exact absurd hb hl
            by_contra hv
            exact hp0 ⟨hl2, Nat.le_of_not_lt hv⟩
        rw [if_pos habort]
        have hnall : ¬∀ i, i < n + 1 →
            ((wsFind tx.write_set (source + i * r.align)).isSome = true
              ∨ ((r.wordD (source + i * r.align)).lock.locked = false
                ∧ (r.wordD (source + i * r.align)).lock.version ≤ tx.rv)) := by
          intro hc
          have h0 := hc 0 (Nat.succ_pos n)
          simp only [Nat.zero_mul, Nat.add_zero] at h0
          rcases h0 with hs | hp
          · rw [hf] at hs
            simp at hs
          · exact hp0 hp
        rw [if_neg hnall]

lemma unlock_of_unlocked (l : VersionedLock) (h : l.locked = false) :
    l.Unlock = l := by
  cases l with
  | mk lk v =>
    cases lk
    · rfl
    · simp at h

lemma wordSet_gvc_eq (r : Region) (a : Nat) (w : Word) :
    (r.wordSet a w).gvc = r.gvc := by
  unfold Region.wordSet
  cases r.mem[segIndex a]? <;> rfl

lemma wordSet_wordD_self (r : Region) (a : Nat) : r.wordSet a (r.wordD a) = r := by
  unfold Region.wordSet Region.wordD Region.word
  cases hseg : r.mem[segIndex a]? with
  | none => rfl
  | some s =>
    dsimp only
    cases hw : s.words[wordIndex r.align a]? with
    | none =>
      have hj : s.words.length ≤ wordIndex r.align a := by
        rw [← List.getElem?_eq_none_iff]
        exact hw
      simp only [Option.getD_none]
      rw [List.set_eq_of_length_le hj]
      rw [list_set_getElem? r.mem (segIndex a) s hseg]
    | some w =>
      simp only [Option.getD_some]
      rw [list_set_getElem? s.words (wordIndex r.align a) w hw]
      have hseta : ({ size := s.size, words := s.words } : Segment) = s := rfl
      rw [hseta, list_set_getElem? r.mem (segIndex a) s hseg]

lemma unlockCopies_eq (r : Region) (l : List Word) : unlockCopies r l = r := rfl

lemma lockWriteSetGo_eq (r : Region) (rv : Nat) (acc : List Word)
    (ws : List (Nat × Nat)) :
    lockWriteSetGo r rv acc ws = ((ws.all fun e => !(r.wordD e.1).lock.locked), r) := by
  induction ws generalizing acc with
  | nil => rfl
  | cons e t ih =>
    simp only [lockWriteSetGo, VersionedLock.TryLock, List.all_cons]
    by_cases h : (r.wordD e.1).lock.locked
    · rw [if_pos h]
      simp [h, unlockCopies_eq]
    · rw [if_neg h]
      have hb : (r.wordD e.1).lock.locked = false := by
        cases hx : (r.wordD e.1).lock.locked
        · rfl
        · exact absurd hx h
      simp [hb, ih]

/-- Region::LockWriteSet in closed form: because the loop locks a by-value
copy of each word, it returns true iff every write-set word is currently
unlocked, and it never modifies the region. -/
lemma lockWriteSet_eq (r : Region) (tx : Transaction) :
    r.LockWriteSet tx = ((tx.write_set.all fun e => !(r.wordD e.1).lock.locked), r) :=
  lockWriteSetGo_eq r tx.rv [] tx.write_set

lemma all_unlocked_iff (r : Region) (ws : List (Nat × Nat)) :
    (ws.all fun e => !(r.wordD e.1).lock.locked) = true ↔
    ∀ e ∈ ws, (r.wordD e.1).lock.locked = false := by
  rw [List.all_eq_true]
  constructor <;> intro h e he
  · have := h e he
    simpa using this
  · simp [h e he]

lemma unlock_foldl_id (r : Region) (ws : List (Nat × Nat))
    (h : ∀ e ∈ ws, (r.wordD e.1).lock.locked = false) :
    ws.foldl
      (fun acc e => acc.wordSet e.1 ⟨(acc.wordD e.1).lock.Unlock, (acc.wordD e.1).data⟩)
      r = r := by
  induction ws with
  | nil => rfl
  | cons e t ih =>
    rw [List.foldl_cons]
    have h1 : (r.wordD e.1).lock.Unlock = (r.wordD e.1).lock :=
      unlock_of_unlocked _ (h e (by simp))
    rw [h1]
    have h2 : (⟨(r.wordD e.1).lock, (r.wordD e.1).data⟩ : Word) = r.wordD e.1 := rfl
    rw [h2, wordSet_wordD_self]
    exact ih fun x hx => h x (List.mem_cons_of_mem e hx)

lemma unlockWriteSet_id (r : Region) (tx : Transaction)
    (h : ∀ e ∈ tx.write_set, (r.wordD e.1).lock.locked = false) :
    r.UnlockWriteSet tx = r := by
  unfold Region.UnlockWriteSet
  exact unlock_foldl_id r tx.write_set h

lemma commit_gvc (r : Region) (tx : Transaction) :
    (r.Commit tx).gvc = r.gvc := by
  unfold Region.Commit
  generalize tx.write_set = ws
  induction ws generalizing r with
  | nil => rfl
  | cons e t ih =>
    rw [List.foldl_cons, ih]
    exact wordSet_gvc_eq r e.1 _
lemma applyAllocs_mem (r : Region) (l : List Nat) :
    (applyAllocs r l).mem = r.mem ∧ (applyAllocs r l).align = r.align := by
  induction l generalizing r with
  | nil => exact ⟨rfl, rfl⟩
  | cons sz t ih =>
    rw [applyAllocs]
    exact ih (r.Alloc sz).2

/-
Claim theorems.
-/

/-- Claim C1, counterexample: the claim states that the word index is the
full 32-bit byte offset divided by align for every aligned offset
representable in 32 bits, but the code masks with kADDR_MASK = 0xFFFF; at
the aligned address 2^32 + 2^16 (offset 65536) the code computes word index
0 while the claimed formula gives 8192. -/
theorem claim1_mask_cex :
    wordIndex 8 4295032832 ≠ ((4295032832 &&& 4294967295) / 8) := by decide

/-- Claim C1 (amended): the region word lookup decomposes an address as
(addr >> 32, (addr & 0xFFFF) / align); this agrees with the claimed
(addr >> 32, (addr & 0xFFFFFFFF) / align) exactly when the 32-bit byte
offset fits in 16 bits. -/
theorem claim1_decomposition (r : Region) (addr : Nat)
    (hoff : addr &&& 4294967295 < 65536) :
    r.word addr = match r.mem[addr >>> 32]? with
      | none => none
      | some s => s.words[(addr &&& 4294967295) / r.align]? := by
  have h16 : addr &&& 65535 = addr % 65536 := by
    have h := Nat.and_pow_two_sub_one_eq_mod addr 16
    norm_num at h
    exact h
  have h32 : addr &&& 4294967295 = addr % 4294967296 := by
    have h := Nat.and_pow_two_sub_one_eq_mod addr 32
    norm_num at h
    exact h
  have hmask : addr &&& 65535 = addr &&& 4294967295 := by
    rw [h32] at hoff
    rw [h16, h32]
    omega
  unfold Region.word segIndex wordIndex kADDR_MASK
  rw [hmask]

/-- Witness for claim C1 at the concrete address 1 << 32 (offset 0). -/
theorem claim1_decomposition_witness :
    (4294967296 &&& 4294967295 < 65536) ∧ (regOf wVal).word 4294967296 = some wVal := by
  refine ⟨by decide, ?_⟩
  rw [claim1_decomposition (regOf wVal) 4294967296 (by decide)]
  decide

/-- Claim C8: tm_write returns true, stages each align-byte source chunk
into the write set at the corresponding word address, and leaves the region
(payloads, versioned locks, global version clock) entirely untouched. -/
theorem claim8_write_stages_only (r : Region) (tx : Transaction) (src : List Nat)
    (target : Nat) (hal : 0 < r.align) :
    (tm_write r tx src target).1 = true ∧
    (tm_write r tx src target).2.2 = r ∧
    ∀ i, i < src.length →
      wsFind (tm_write r tx src target).2.1.write_set (target + i * r.align) = src[i]? := by
  refine ⟨rfl, rfl, ?_⟩
  intro i hi
  exact wsFind_stage src tx.write_set target r.align i hal hi

/-- Witness for claim C8: staging one chunk at ADDR. -/
theorem claim8_write_stages_only_witness :
    0 < (regOf wZero).align ∧
    (tm_write (regOf wZero) (tm_begin (regOf wZero) false) [77] ADDR).2.2 = regOf wZero ∧
    wsFind (tm_write (regOf wZero) (tm_begin (regOf wZero) false) [77] ADDR).2.1.write_set
      (ADDR + 0 * (regOf wZero).align) = some 77 := by
  have h := claim8_write_stages_only (regOf wZero) (tm_begin (regOf wZero) false) [77] ADDR
    (by decide)
  refine ⟨by decide, h.2.1, ?_⟩
  have h2 := h.2.2 0 (by decide)
  simpa using h2

/-- Claim C9: a transaction begun read-only has an empty read set, every
successful read returns the transaction unchanged (so the read set stays
empty), and tm_end on a read-only transaction always returns success,
destroying the transaction and leaving the region unchanged. -/
theorem claim9_ro_empty_read_set (r : Region) (tx : Transaction) (source n : Nat)
    (hro : tx.ro = true) :
    (tm_begin r true).read_set = [] ∧
    (∀ dst tx2, tm_read r tx source n = some (dst, tx2) → tx2 = tx) ∧
    tm_end r tx = (true, r) := by
  refine ⟨rfl, ?_, ?_⟩
  · intro dst tx2 h
    rw [tm_read, if_pos hro, readWordsRO_eq] at h
    split at h
    · simp only [Option.some.injEq, Prod.mk.injEq] at h
      exact h.2.symm
    · exact Option.noConfusion h
  · rw [tm_end, if_pos hro]

/-- Witness for claim C9 on a concrete read-only transaction. -/
theorem claim9_ro_empty_read_set_witness :
    (tm_begin (regOf wVal) true).read_set = [] ∧
    tm_end (regOf wVal) (tm_begin (regOf wVal) true) = (true, regOf wVal) ∧
    tm_read (regOf wVal) (tm_begin (regOf wVal) true) ADDR 1 =
      some ([17], tm_begin (regOf wVal) true) := by
  have h := claim9_ro_empty_read_set (regOf wVal) (tm_begin (regOf wVal) true) ADDR 1 rfl
  exact ⟨h.1, h.2.2, by decide⟩

/-- Claim C10: a region built by tm_create holds exactly 512 segments of
exactly 1024 words each, independent of the requested size and of any
allocation calls, and the word lookup is in bounds exactly when the segment
index addr >> 32 is below 512 and the masked word index
(addr & 0xFFFF) / align is below 1024; any other word address indexes out of
range (the lookup is none). -/
theorem claim10_layout (size align : Nat) (allocs : List Nat) (addr : Nat) :
    (applyAllocs (tm_create size align) allocs).mem.length = 512 ∧
    (∀ s ∈ (applyAllocs (tm_create size align) allocs).mem, s.words.length = 1024) ∧
    (((applyAllocs (tm_create size align) allocs).word addr).isSome = true ↔
      (addr >>> 32 < 512 ∧ (addr &&& 65535) / align < 1024)) := by
  obtain ⟨hmem, halign⟩ := applyAllocs_mem (tm_create size align) allocs
  have hcr : (tm_create size align).mem =
      List.replicate 512 ⟨size, List.replicate 1024 default⟩ := rfl
  rw [hcr] at hmem
  have hcal : (tm_create size align).align = align := rfl
  rw [hcal] at halign
  refine ⟨?_, ?_, ?_⟩
  · rw [hmem]
    exact List.length_replicate 512 _
  · intro s hs
    rw [hmem] at hs
    rw [List.eq_of_mem_replicate hs]
    exact List.length_replicate 1024 _
  · unfold Region.word
    rw [hmem, halign]
    rw [List.getElem?_replicate]
    by_cases hseg : segIndex addr < 512
    · rw [if_pos hseg]
      dsimp only
      rw [List.getElem?_replicate]
      by_cases hw : wordIndex align addr < 1024
      · rw [if_pos hw]
        simp only [Option.isSome_some, true_iff]
        unfold segIndex at hseg
        unfold wordIndex kADDR_MASK at hw
        exact ⟨hseg, hw⟩
      · rw [if_neg hw]
        simp only [Option.isSome_none, Bool.false_eq_true, false_iff]
        intro hc
        apply hw
        unfold wordIndex kADDR_MASK
        exact hc.2
    · rw [if_neg hseg]
      simp only [Option.isSome_none, Bool.false_eq_true, false_iff]
      intro hc
      apply hseg
      unfold segIndex
      exact hc.1

/-- Witness for claim C10 on a concrete create plus one allocation. -/
theorem claim10_layout_witness :
    (applyAllocs (tm_create 64 8) [16]).mem.length = 512 ∧
    ((applyAllocs (tm_create 64 8) [16]).word 4294967296).isSome = true := by
  have h := claim10_layout 64 8 [16] 4294967296
  exact ⟨h.1, h.2.2.mpr (by decide)⟩

/-- Claim C2 concerns Region::LockWriteSet, whose loop reads each word into
a by-value copy (auto w = word(entry.first)) and calls TryLock on that copy;
the rollback loop likewise unlocks the recorded copies (in forward
iteration order, not reverse).  As a result a successful call leaves every
shared write-set word unlocked and the region unmodified, contradicting the
intended behavior the claim (and the spec) describe: at the concrete
one-entry write set over the unlocked word at ADDR, LockWriteSet returns
true yet the shared versioned lock is still free. -/
theorem claim2_lock_copies_bug :
    Region.LockWriteSet (regOf wZero) txC2 = (true, regOf wZero) ∧
    ((regOf wZero).wordD ADDR).lock.locked = false := by
  constructor
  · decide
  · decide

/-- Claim C4, counterexample: the read-write loop of tm_read inserts every
address into the read set before consulting the write set, so an address
that is found in the write set (here ADDR, staged with chunk 119) still
enters the read set, contradicting the claim that insertion happens only
when the address is not found in the write set. -/
theorem claim4_read_set_cex :
    wsFind txC4.write_set ADDR = some 119 ∧
    ADDR ∈ ((tm_read (regOf wZero) txC4 ADDR 1).getD ([], txC4)).2.read_set := by
  constructor
  · decide
  · decide

/-- Claim C4 (amended): in a non-read-only read, every address found in the
write set is served by copying the staged chunk into the destination without
consulting the shared word (a read whose words all hit the write set
succeeds for any region contents, and each hit yields exactly the staged
chunk), and every word address processed by a successful read is inserted
into the read set, whether or not it is found in the write set. -/
theorem claim4_read_from_write_set (r : Region) (tx : Transaction) (source n : Nat)
    (hro : tx.ro = false) :
    ((∀ i, i < n → (wsFind tx.write_set (source + i * r.align)).isSome = true) →
      (tm_read r tx source n).isSome = true) ∧
    ∀ dst tx2, tm_read r tx source n = some (dst, tx2) →
      (∀ i, i < n → (source + i * r.align) ∈ tx2.read_set) ∧
      (∀ i, i < n → ∀ v, wsFind tx.write_set (source + i * r.align) = some v →
        dst[i]? = some v) ∧
      tx2.write_set = tx.write_set := by
  constructor
  · intro hws
    have hcond : ∀ i, i < n → ((wsFind tx.write_set (source + i * r.align)).isSome = true
        ∨ ((r.wordD (source + i * r.align)).lock.locked = false
          ∧ (r.wordD (source + i * r.align)).lock.version ≤ tx.rv)) :=
      fun i hi => Or.inl (hws i hi)
    rw [tm_read, if_neg (by simp [hro]), readWordsRW_eq, if_pos hcond]
    rfl
  · intro dst tx2 h
    rw [tm_read, if_neg (by simp [hro]), readWordsRW_eq] at h
    split at h
    · simp only [Option.some.injEq, Prod.mk.injEq] at h
      refine ⟨?_, ?_, ?_⟩
      · intro i hi
        rw [← h.2]
        dsimp only
        rw [mem_foldl_insertRS]
        right
        rw [List.mem_map]
        exact ⟨i, List.mem_range.mpr hi, rfl⟩
      · intro i hi v hv
        have hval : dst[i]? = some ((wsFind tx.write_set (source + i * r.align)).getD
            (r.wordD (source + i * r.align)).data) := by
          rw [← h.1, List.getElem?_map, List.getElem?_range hi]
          rfl
        rw [hval, hv]
        rfl
      · rw [← h.2]
    · exact Option.noConfusion h

/-- Witness for claim C4: a one-word read of an address missing from the
write set inserts it into the read set, and so does a one-word read of the
staged address, whose destination receives the staged chunk. -/
theorem claim4_read_from_write_set_witness :
    ADDR ∈ ((tm_read (regOf wVal) (tm_begin (regOf wVal) false) ADDR 1).getD
      ([], tm_begin (regOf wVal) false)).2.read_set ∧
    ADDR ∈ ((tm_read (regOf wZero) txC4 ADDR 1).getD ([], txC4)).2.read_set ∧
    tm_read (regOf wZero) txC4 ADDR 1 =
      some ([119], ⟨false, 7, 0, [ADDR], [(ADDR, 119)]⟩) := by
  have hmiss := (claim4_read_from_write_set (regOf wVal) (tm_begin (regOf wVal) false)
    ADDR 1 rfl).2 [17] ⟨false, 7, 0, [ADDR], []⟩ (by decide)
  have hhit := (claim4_read_from_write_set (regOf wZero) txC4 ADDR 1 rfl).2
    [119] ⟨false, 7, 0, [ADDR], [(ADDR, 119)]⟩ (by decide)
  refine ⟨?_, ?_, by decide⟩
  · have heq : tm_read (regOf wVal) (tm_begin (regOf wVal) false) ADDR 1 =
        some ([17], (⟨false, 7, 0, [ADDR], []⟩ : Transaction)) := by decide
    rw [heq]
    have h0 := hmiss.1 0 (by decide)
    have harith : ADDR + 0 * (regOf wVal).align = ADDR := by simp
    rw [harith] at h0
    exact h0
  · have heq : tm_read (regOf wZero) txC4 ADDR 1 =
        some ([119], (⟨false, 7, 0, [ADDR], [(ADDR, 119)]⟩ : Transaction)) := by decide
    rw [heq]
    have h0 := hhit.1 0 (by decide)
    have harith : ADDR + 0 * (regOf wZero).align = ADDR := by simp
    rw [harith] at h0
    exact h0

/-- Claim C5: during a read, every word not served from the write set has
its lock sampled; the read aborts, destroying the transaction (modelled by
the none result) exactly when some such word samples as locked or with
version greater than rv, and otherwise each such word's payload is copied
into the destination and the read returns success after all words. -/
theorem claim5_read_sampling (r : Region) (tx : Transaction) (source n : Nat) :
    ((tm_read r tx source n).isSome = true ↔
      ∀ i, i < n →
        ((tx.ro = false ∧ (wsFind tx.write_set (source + i * r.align)).isSome = true)
          ∨ ((r.wordD (source + i * r.align)).lock.Sample.locked = false
            ∧ (r.wordD (source + i * r.align)).lock.Sample.version ≤ tx.rv))) ∧
    (∀ dst tx2, tm_read r tx source n = some (dst, tx2) →
      ∀ i, i < n → (tx.ro = true ∨ wsFind tx.write_set (source + i * r.align) = none) →
        dst[i]? = some ((r.wordD (source + i * r.align)).data)) := by
  cases hro : tx.ro with
  | true =>
    constructor
    · rw [tm_read, if_pos hro, readWordsRO_eq]
      by_cases hc : ∀ i, i < n → ((r.wordD (source + i * r.align)).lock.locked = false
          ∧ (r.wordD (source + i * r.align)).lock.version ≤ tx.rv)
      · rw [if_pos hc]
        refine iff_of_true (by simp) ?_
        intro i hi
        exact Or.inr (hc i hi)
      · rw [if_neg hc]
        refine iff_of_false (by simp) ?_
        intro hall
        apply hc
        intro i hi
        rcases hall i hi with ⟨hf, _⟩ | hp
        · exact absurd hf (by simp)
        · exact hp
    · intro dst tx2 h i hi _
      rw [tm_read, if_pos hro, readWordsRO_eq] at h
      split at h
      · simp only [Option.some.injEq, Prod.mk.injEq] at h
        rw [← h.1, List.getElem?_map, List.getElem?_range hi]
        rfl
      · exact Option.noConfusion h
  | false =>
    constructor
    · rw [tm_read, if_neg (by simp [hro]), readWordsRW_eq]
      by_cases hc : ∀ i, i < n → ((wsFind tx.write_set (source + i * r.align)).isSome = true
          ∨ ((r.wordD (source + i * r.align)).lock.locked = false
            ∧ (r.wordD (source + i * r.align)).lock.version ≤ tx.rv))
      · rw [if_pos hc]
        refine iff_of_true (by simp) ?_
        intro i hi
        rcases hc i hi with hs | hp
        · exact Or.inl ⟨rfl, hs⟩
        · exact Or.inr hp
      · rw [if_neg hc]
        refine iff_of_false (by simp) ?_
        intro hall
        apply hc
        intro i hi
        rcases hall i hi with ⟨_, hs⟩ | hp
        · exact Or.inl hs
        · exact Or.inr hp
    · intro dst tx2 h i hi hnf
      rcases hnf with hnf | hnf
      · exact absurd hnf (by simp)
      · rw [tm_read, if_neg (by simp [hro]), readWordsRW_eq] at h
        split at h
        · simp only [Option.some.injEq, Prod.mk.injEq] at h
          have hval : dst[i]? = some ((wsFind tx.write_set (source + i * r.align)).getD
              (r.wordD (source + i * r.align)).data) := by
            rw [← h.1, List.getElem?_map, List.getElem?_range hi]
            rfl
          rw [hval, hnf]
          rfl
        · exact Option.noConfusion h

/-- Witness for claim C5: a one-word read-only read of a locked word
aborts, destroying the transaction. -/
theorem claim5_read_sampling_witness :
    tm_read (regOf wLocked) (tm_begin (regOf wLocked) true) ADDR 1 = none := by
  have h := claim5_read_sampling (regOf wLocked) (tm_begin (regOf wLocked) true) ADDR 1
  cases hr : tm_read (regOf wLocked) (tm_begin (regOf wLocked) true) ADDR 1 with
  | none => rfl
  | some p =>
    have hs : (tm_read (regOf wLocked) (tm_begin (regOf wLocked) true) ADDR 1).isSome = true := by
      rw [hr]
      rfl
    have h0 := h.1.mp hs 0 (by decide)
    exact absurd h0 (by decide)

/-- Claim C7 (read-your-writes): within one non-read-only transaction,
writing src (a list of align-byte chunks, n = src.length words, so the byte
size is the positive multiple src.length * align of the alignment) to
address a and then reading n words from a with no intervening write yields
exactly src. -/
theorem claim7_read_your_writes (r : Region) (tx : Transaction) (src : List Nat)
    (a : Nat) (hro : tx.ro = false) (hal : 0 < r.align) :
    ∀ b tx1 r1, tm_write r tx src a = (b, tx1, r1) →
      ∃ tx2, tm_read r1 tx1 a src.length = some (src, tx2) := by
  intro b tx1 r1 hw
  rw [tm_write, Prod.mk.injEq, Prod.mk.injEq] at hw
  obtain ⟨-, htx1, hr1⟩ := hw
  subst htx1
  subst hr1
  have hfind : ∀ i, i < src.length →
      wsFind (stageWords r.align tx.write_set src a) (a + i * r.align) = src[i]? :=
    fun i hi => wsFind_stage src tx.write_set a r.align i hal hi
  have hcond : ∀ i, i < src.length →
      ((wsFind (stageWords r.align tx.write_set src a) (a + i * r.align)).isSome = true
        ∨ ((r.wordD (a + i * r.align)).lock.locked = false
          ∧ (r.wordD (a + i * r.align)).lock.version ≤ tx.rv)) := by
    intro i hi
    left
    rw [hfind i hi, List.getElem?_eq_getElem hi]
    rfl
  refine ⟨Transaction.mk tx.ro tx.rv tx.wv
      (((List.range src.length).map (fun i => a + i * r.align)).foldl insertRS tx.read_set)
      (stageWords r.align tx.write_set src a), ?_⟩
  rw [tm_read, if_neg (by simp [hro])]
  have heq := readWordsRW_eq r { tx with write_set := stageWords r.align tx.write_set src a }
    a src.length
  dsimp only at heq
  rw [heq, if_pos hcond]
  have hdst : ((List.range src.length).map fun i =>
      (wsFind (stageWords r.align tx.write_set src a) (a + i * r.align)).getD
        (r.wordD (a + i * r.align)).data) = src := by
    apply List.ext_getElem?
    intro i
    by_cases hi : i < src.length
    · have hv2 : (((List.range src.length).map fun i =>
          (wsFind (stageWords r.align tx.write_set src a) (a + i * r.align)).getD
            (r.wordD (a + i * r.align)).data))[i]? =
          some ((wsFind (stageWords r.align tx.write_set src a) (a + i * r.align)).getD
            (r.wordD (a + i * r.align)).data) := by
        rw [List.getElem?_map, List.getElem?_range hi]
        rfl
      rw [hv2, hfind i hi, List.getElem?_eq_getElem hi]
      rfl
    · have h1 : ((List.range src.length).map fun i =>
          (wsFind (stageWords r.align tx.write_set src a) (a + i * r.align)).getD
            (r.wordD (a + i * r.align)).data).length ≤ i := by
        simpa using Nat.le_of_not_lt hi
      rw [List.getElem?_eq_none h1, List.getElem?_eq_none (Nat.le_of_not_lt hi)]
  rw [hdst]

/-- Witness for claim C7: write chunk 99 at ADDR, read it back. -/
theorem claim7_read_your_writes_witness :
    tm_read (regOf wZero) (tm_write (regOf wZero) (tm_begin (regOf wZero) false) [99] ADDR).2.1
      ADDR 1 = some ([99], ⟨false, 7, 0, [ADDR], [(ADDR, 99)]⟩) := by
  obtain ⟨tx2, h2⟩ := claim7_read_your_writes (regOf wZero) (tm_begin (regOf wZero) false)
    [99] ADDR rfl (by decide)
    (tm_write (regOf wZero) (tm_begin (regOf wZero) false) [99] ADDR).1
    (tm_write (regOf wZero) (tm_begin (regOf wZero) false) [99] ADDR).2.1
    (tm_write (regOf wZero) (tm_begin (regOf wZero) false) [99] ADDR).2.2 rfl
  decide
/-- Claim C3: for a non-read-only transaction whose write-set lock
acquisition succeeded, tm_end obtains wv = gvc.fetch_add(1) + 1 — the
returned region's clock equals (gvc + 1) mod 2^32 and the committed versions
use that value — and read-set validation is skipped if and only if
wv = rv + 1 (in 32-bit arithmetic): on the fast path it commits regardless
of the read set, otherwise commit success is equivalent to read-set
validation. -/
theorem claim3_commit_version_fast_path (r : Region) (tx : Transaction)
    (hro : tx.ro = false)
    (hl : (r.LockWriteSet tx).1 = true) :
    (tm_end r tx).2.gvc = (r.gvc + 1) % uintMod ∧
    ((tx.rv + 1) % uintMod = (r.gvc + 1) % uintMod →
      tm_end r tx = (true, Region.Commit { r with gvc := (r.gvc + 1) % uintMod }
        { tx with wv := (r.gvc + 1) % uintMod })) ∧
    ((tx.rv + 1) % uintMod ≠ (r.gvc + 1) % uintMod →
      ((tm_end r tx).1 = true ↔ r.ValidateReadSet tx = true)) := by
  have hall : (tx.write_set.all fun e => !(r.wordD e.1).lock.locked) = true := by
    have he := lockWriteSet_eq r tx
    rw [he] at hl
    exact hl
  have hlw : r.LockWriteSet tx = (true, r) := by
    rw [lockWriteSet_eq, hall]
  have hend : tm_end r tx =
      (if (tx.rv + 1) % uintMod = (r.gvc + 1) % uintMod then
        (true, Region.Commit { r with gvc := (r.gvc + 1) % uintMod }
          { tx with wv := (r.gvc + 1) % uintMod })
      else if Region.ValidateReadSet { r with gvc := (r.gvc + 1) % uintMod }
          { tx with wv := (r.gvc + 1) % uintMod } then
        (true, Region.Commit { r with gvc := (r.gvc + 1) % uintMod }
          { tx with wv := (r.gvc + 1) % uintMod })
      else (false, Region.UnlockWriteSet { r with gvc := (r.gvc + 1) % uintMod }
          { tx with wv := (r.gvc + 1) % uintMod })) := by
    rw [tm_end, if_neg (by simp [hro]), hlw]
  have hval : Region.ValidateReadSet { r with gvc := (r.gvc + 1) % uintMod }
      { tx with wv := (r.gvc + 1) % uintMod } = r.ValidateReadSet tx := by
    unfold Region.ValidateReadSet
    exact validateGo_gvc r ((r.gvc + 1) % uintMod) tx.rv tx.read_set
  have hunlocked : ∀ e ∈ tx.write_set,
      (Region.wordD { r with gvc := (r.gvc + 1) % uintMod } e.1).lock.locked = false := by
    intro e he
    rw [wordD_gvc]
    exact (all_unlocked_iff r tx.write_set).mp hall e he
  refine ⟨?_, ?_, ?_⟩
  · rw [hend]
    by_cases hfp : (tx.rv + 1) % uintMod = (r.gvc + 1) % uintMod
    · rw [if_pos hfp]
      exact commit_gvc _ _
    · rw [if_neg hfp]
      by_cases hv : r.ValidateReadSet tx = true
      · rw [hval, hv, if_pos rfl]
        exact commit_gvc _ _
      · have hvf : r.ValidateReadSet tx = false := by
          cases hb : r.ValidateReadSet tx
          · rfl
          · exact absurd hb hv
        rw [hval, hvf]
        simp only [Bool.false_eq_true, if_false]
        rw [unlockWriteSet_id { r with gvc := (r.gvc + 1) % uintMod }
          { tx with wv := (r.gvc + 1) % uintMod } hunlocked]
  · intro hfp
    rw [hend, if_pos hfp]
  · intro hne
    rw [hend, if_neg hne, hval]
    by_cases hv : r.ValidateReadSet tx = true
    · rw [hv, if_pos rfl]
    · have hvf : r.ValidateReadSet tx = false := by
        cases hb : r.ValidateReadSet tx
        · rfl
        · exact absurd hb hv
      rw [hvf]
      simp [hvf]

/-- Witness for claim C3: fast-path commit of a transaction with rv equal
to the clock. -/
theorem claim3_commit_version_fast_path_witness :
    ((regOf wZero).LockWriteSet txC3).1 = true ∧
    (tm_end (regOf wZero) txC3).2.gvc = ((regOf wZero).gvc + 1) % uintMod ∧
    tm_end (regOf wZero) txC3 = (true, Region.Commit
      { regOf wZero with gvc := ((regOf wZero).gvc + 1) % uintMod }
      { txC3 with wv := ((regOf wZero).gvc + 1) % uintMod }) := by
  have h := claim3_commit_version_fast_path (regOf wZero) txC3 rfl (by decide)
  exact ⟨by decide, h.1, h.2.1 (by decide)⟩

/-- Claim C6: when the fast path does not apply and read-set validation
fails, tm_end releases the write-set locks with versions unchanged, destroys
the transaction, returns false and modifies no word payload: the returned
region is the input region with only the global clock bumped (the shared
words are untouched, because the earlier lock phase operated on by-value
copies and the unlock loop then re-stores the unchanged lock states). -/
theorem claim6_validation_failure_aborts (r : Region) (tx : Transaction)
    (hro : tx.ro = false)
    (hl : (r.LockWriteSet tx).1 = true)
    (hne : (tx.rv + 1) % uintMod ≠ (r.gvc + 1) % uintMod)
    (hv : r.ValidateReadSet tx = false) :
    tm_end r tx = (false, { r with gvc := (r.gvc + 1) % uintMod }) := by
  have hall : (tx.write_set.all fun e => !(r.wordD e.1).lock.locked) = true := by
    have he := lockWriteSet_eq r tx
    rw [he] at hl
    exact hl
  have hlw : r.LockWriteSet tx = (true, r) := by
    rw [lockWriteSet_eq, hall]
  have hval : Region.ValidateReadSet { r with gvc := (r.gvc + 1) % uintMod }
      { tx with wv := (r.gvc + 1) % uintMod } = r.ValidateReadSet tx := by
    unfold Region.ValidateReadSet
    exact validateGo_gvc r ((r.gvc + 1) % uintMod) tx.rv tx.read_set
  have hunlocked : ∀ e ∈ tx.write_set,
      (Region.wordD { r with gvc := (r.gvc + 1) % uintMod } e.1).lock.locked = false := by
    intro e he
    rw [wordD_gvc]
    exact (all_unlocked_iff r tx.write_set).mp hall e he
  have hend : tm_end r tx =
      (if (tx.rv + 1) % uintMod = (r.gvc + 1) % uintMod then
        (true, Region.Commit { r with gvc := (r.gvc + 1) % uintMod }
          { tx with wv := (r.gvc + 1) % uintMod })
      else if Region.ValidateReadSet { r with gvc := (r.gvc + 1) % uintMod }
          { tx with wv := (r.gvc + 1) % uintMod } then
        (true, Region.Commit { r with gvc := (r.gvc + 1) % uintMod }
          { tx with wv := (r.gvc + 1) % uintMod })
      else (false, Region.UnlockWriteSet { r with gvc := (r.gvc + 1) % uintMod }
          { tx with wv := (r.gvc + 1) % uintMod })) := by
    rw [tm_end, if_neg (by simp [hro]), hlw]
  rw [hend, if_neg hne, hval, hv]
  simp only [Bool.false_eq_true, if_false]
  rw [unlockWriteSet_id { r with gvc := (r.gvc + 1) % uintMod }
    { tx with wv := (r.gvc + 1) % uintMod } hunlocked]

/-- Witness for claim C6: a stale read-set word (version 9 against rv 0)
makes tm_end return false and leave every word unchanged. -/
theorem claim6_validation_failure_aborts_witness :
    (regOf wStale).ValidateReadSet txC6 = false ∧
    tm_end (regOf wStale) txC6 =
      (false, { regOf wStale with gvc := ((regOf wStale).gvc + 1) % uintMod }) := by
  refine ⟨by decide, ?_⟩
  exact claim6_validation_failure_aborts (regOf wStale) txC6 rfl (by decide) (by decide)
    (by decide)

end TL2
